import Mathlib

/-!
Verification of the br-ow-ser rendering pipeline sources (dom.rs, css.rs,
html.rs, style.rs and the spec-described layout stage) via a shallow
embedding.  Rust machine strings are modelled as `List Char` streams,
`HashMap` as association lists observed through lookup, `f32` as `ℚ`,
and every Rust panic (`panic!`, `assert!`, `todo!`, `unwrap`) as `none`
in an `Option` result.  Parser loops carry an explicit fuel argument;
the top-level entry points supply fuel bounded by the input length,
which is always sufficient because every loop iteration consumes at
least one character.
-/

namespace BrOwSer

/-! ## dom.rs -/

/-- Attribute map of an element (`AttrMap = HashMap<String, String>`),
modelled as an association list read through first-match lookup. -/
def AttrMap := List (String × String)

/-- `ElementData` from dom.rs. -/
structure ElementData where
  tag_name : String
  attributes : AttrMap

/-- `ProcessingInstructionData` from dom.rs. -/
structure ProcessingInstructionData where
  target : String
  data : String

/-- `NodeType` from dom.rs. -/
inductive NodeType where
| Text : String → NodeType
| Element : ElementData → NodeType
| ProcessingInstruction : ProcessingInstructionData → NodeType
| Comment : String → NodeType

/-- `Node` from dom.rs: children plus a node type. -/
inductive Node where
| mk : List Node → NodeType → Node

def Node.children : Node → List Node
| .mk c _ => c

def Node.node_type : Node → NodeType
| .mk _ t => t

/-- `dom::text`. -/
def text (data : String) : Node := .mk [] (.Text data)

/-- `dom::elem`. -/
def elem (name : String) (attrs : AttrMap) (children : List Node) : Node :=
  .mk children (.Element ⟨name, attrs⟩)

/-- `dom::comment`. -/
def comment (data : String) : Node := .mk [] (.Comment data)

/-- `HashMap::get`, observed on the association-list model. -/
def attrGet (m : AttrMap) (k : String) : Option String :=
  (List.find? (fun p => p.1 == k) m).map Prod.snd

/-- `ElementData::id`: `self.attributes.get("id")`. -/
def ElementData.id (e : ElementData) : Option String :=
  attrGet e.attributes "id"

/-- Rust `str::split(c)`: the (possibly empty) fragments between
occurrences of `c`; the split of an empty string is one empty fragment. -/
def splitChar (sep : Char) : List Char → List (List Char)
| [] => [[]]
| c :: cs =>
  match splitChar sep cs with
  | [] => [[c]]
  | t :: ts => if c = sep then [] :: t :: ts else (c :: t) :: ts

/-- `ElementData::classes`: the space-separated fragments of the `class`
attribute (a `HashSet` in Rust, observed only through membership). -/
def ElementData.classes (e : ElementData) : List String :=
  match attrGet e.attributes "class" with
  | some classlist => (splitChar ' ' classlist.data).map String.mk
  | none => []

/-! ## css.rs data model -/

/-- `Unit` from css.rs: pixels are the only unit. -/
inductive CssUnit where
| Px
deriving DecidableEq

/-- `Color` from css.rs (`u8` components as bounded naturals). -/
structure Color where
  r : Nat
  g : Nat
  b : Nat
  a : Nat
deriving DecidableEq

/-- `Value` from css.rs; the `f32` length magnitude is modelled as `ℚ`. -/
inductive Value where
| Keyword : String → Value
| Length : ℚ → CssUnit → Value
| ColorValue : Color → Value
deriving DecidableEq

/-- `SimpleSelector` from css.rs. -/
structure SimpleSelector where
  tag_name : Option String
  id : Option String
  class' : List String
deriving DecidableEq

/-- `Selector` from css.rs. -/
inductive Selector where
| Simple : SimpleSelector → Selector
deriving DecidableEq

/-- `Declaration` from css.rs. -/
structure Declaration where
  name : String
  value : Value
deriving DecidableEq

/-- `Rule` from css.rs. -/
structure Rule where
  selectors : List Selector
  declarations : List Declaration
deriving DecidableEq

/-- `Stylesheet` from css.rs. -/
structure Stylesheet where
  rules : List Rule
deriving DecidableEq

/-- `Specificity` from css.rs: `(usize, usize, usize)`. -/
abbrev Specificity := Nat × Nat × Nat

/-- `Selector::specificity`: counts of id, class and tag components. -/
def Selector.specificity : Selector → Specificity
| .Simple simple =>
  (simple.id.elim 0 (fun _ => 1), simple.class'.length,
   simple.tag_name.elim 0 (fun _ => 1))

/-- Rust `Ord` on `(usize, usize, usize)`: lexicographic `≤`,
as used by the `sort_by` comparators in css.rs and style.rs. -/
def specLE (x y : Specificity) : Bool :=
  decide (x.1 < y.1) ||
    (decide (x.1 = y.1) &&
      (decide (x.2.1 < y.2.1) ||
        (decide (x.2.1 = y.2.1) && decide (x.2.2 ≤ y.2.2))))

theorem specLE_iff (x y : Specificity) :
    specLE x y = true ↔
      x.1 < y.1 ∨ (x.1 = y.1 ∧ (x.2.1 < y.2.1 ∨ (x.2.1 = y.2.1 ∧ x.2.2 ≤ y.2.2))) := by
  simp [specLE]

theorem specLE_total (x y : Specificity) : specLE x y = true ∨ specLE y x = true := by
  simp only [specLE_iff]; omega

theorem specLE_of_not (x y : Specificity) (h : ¬ specLE x y = true) : specLE y x = true := by
  rcases specLE_total x y with h' | h'
  · exact absurd h' h
  · exact h'

theorem specLE_trans {x y z : Specificity} (hxy : specLE x y = true)
    (hyz : specLE y z = true) : specLE x z = true := by
  simp only [specLE_iff] at hxy hyz ⊢; omega

/-! ## style.rs data model -/

/-- `PropertyMap = HashMap<String, Value>`, modelled as an association
list in which an insert prepends and lookup takes the first match, so
that lookup always observes the most recent insert, exactly as for the
Rust hash map. -/
def PropertyMap := List (String × Value)

/-- `HashMap::insert` on the model: prepend, shadowing older entries. -/
def pmInsert (m : PropertyMap) (k : String) (v : Value) : PropertyMap :=
  (k, v) :: m

/-- `HashMap::get` on the model: first (most recently inserted) match. -/
def pmGet (m : PropertyMap) (k : String) : Option Value :=
  (List.find? (fun p => p.1 == k) m).map Prod.snd

/-- `StyledNode` from style.rs (the Rust `&Node` reference is modelled
by storing the node value itself). -/
inductive StyledNode where
| mk : Node → PropertyMap → List StyledNode → StyledNode

def StyledNode.node : StyledNode → Node
| .mk n _ _ => n

def StyledNode.specified_values : StyledNode → PropertyMap
| .mk _ sv _ => sv

def StyledNode.children : StyledNode → List StyledNode
| .mk _ _ c => c

/-- `Display` from style.rs. -/
inductive Display where
| Inline
| Block
| None
deriving DecidableEq

/-- `StyledNode::value`. -/
def StyledNode.value (sn : StyledNode) (name : String) : Option Value :=
  pmGet sn.specified_values name

/-- `StyledNode::display`: keyword `block` and `none` are recognized,
everything else is inline. -/
def StyledNode.display (sn : StyledNode) : Display :=
  match sn.value "display" with
  | some (Value.Keyword s) =>
    if s = "block" then Display.Block
    else if s = "none" then Display.None
    else Display.Inline
  | _ => Display.Inline

/-! ## style.rs selector matching -/

/-- `style::matches_simple_selector`. -/
def matches_simple_selector (e : ElementData) (selector : SimpleSelector) : Bool :=
  if selector.tag_name.any fun name => e.tag_name != name then false
  else if selector.id.any fun i => e.id != some i then false
  else if selector.class'.any fun c => !(e.classes.contains c) then false
  else true

/-- `style::matches`. -/
def matches' (e : ElementData) (selector : Selector) : Bool :=
  match selector with
  | .Simple simple => matches_simple_selector e simple

/-- `style::match_rule`: the first selector of the rule that matches,
paired with its specificity. -/
def match_rule (e : ElementData) (rule : Rule) : Option (Specificity × Rule) :=
  (rule.selectors.find? (fun selector => matches' e selector)).map
    (fun selector => (selector.specificity, rule))

/-- `style::matching_rules`. -/
def matching_rules (e : ElementData) (sheet : Stylesheet) :
    List (Specificity × Rule) :=
  sheet.rules.filterMap (match_rule e)

/-! ## Stable sorting

Rust `slice::sort_by` is a stable sort; a stable sort is extensionally
determined by its comparator, so it is modelled by insertion sort with
the comparator's `≤`: an element is inserted in front of the first
already-placed element it compares `≤` to, and every already-placed
element comes from later in the original list, which preserves the
original order of elements that compare equal. -/

/-- Insert `a` in front of the first element `b` of `l` with `le a b`. -/
def orderedInsertBy (le : α → α → Bool) (a : α) : List α → List α
| [] => [a]
| b :: l => if le a b then a :: b :: l else b :: orderedInsertBy le a l

/-- Stable sort by the boolean comparator `le` (models Rust `sort_by`). -/
def insertionSortBy (le : α → α → Bool) : List α → List α
| [] => []
| a :: l => orderedInsertBy le a (insertionSortBy le l)

/-- `style::specified_values`: collect the matching rules, stable-sort
them by ascending specificity, then insert every declaration in order so
that later (higher-specificity) declarations overwrite earlier ones. -/
def specified_values (e : ElementData) (sheet : Stylesheet) : PropertyMap :=
  let rules := matching_rules e sheet
  let sorted := insertionSortBy (fun a b => specLE a.1 b.1) rules
  sorted.foldl
    (fun values sr =>
      sr.2.declarations.foldl (fun vs d => pmInsert vs d.name d.value) values)
    []

/-! ## style.rs tree construction -/

mutual
/-- `style::style_tree`.  Element nodes get their cascaded values, text
nodes an empty map; comment and processing-instruction nodes hit the
source's `todo!()` panic, modelled as `none`. -/
def style_tree (root : Node) (sheet : Stylesheet) : Option StyledNode :=
  match root with
  | .mk children nt =>
    match nt with
    | .Element e =>
      match style_tree_children children sheet with
      | some kids => some (.mk (.mk children nt) (specified_values e sheet) kids)
      | none => none
    | .Text _ =>
      match style_tree_children children sheet with
      | some kids => some (.mk (.mk children nt) [] kids)
      | none => none
    | _ => none

/-- The `root.children.iter().map(...).collect()` recursion of
`style_tree`; a panic in any child aborts the whole construction. -/
def style_tree_children (children : List Node) (sheet : Stylesheet) :
    Option (List StyledNode) :=
  match children with
  | [] => some []
  | n :: ns =>
    match style_tree n sheet, style_tree_children ns sheet with
    | some s, some ss => some (s :: ss)
    | _, _ => none
end

/-! ## Cascade analysis (claim C1)

`specified_values` folds `HashMap::insert` over the declarations of the
matching rules in ascending-specificity order, so for every property the
surviving value is the last one inserted.  The following definitions and
lemmas characterise that survivor. -/

/-- The last declaration of property `p` in a declaration list: the one
whose `values.insert` call wins within a single rule. -/
def declLast : List Declaration → String → Option Value
| [], _ => none
| d :: ds, p =>
  match declLast ds p with
  | some v => some v
  | none => if d.name = p then some d.value else none

/-- The specificity and value of the last rule in a matched-rule list
that declares `p`. -/
def lastValS : List (Specificity × Rule) → String → Option (Specificity × Value)
| [], _ => none
| sr :: rest, p =>
  match lastValS rest p with
  | some w => some w
  | none => (declLast sr.2.declarations p).map (fun v => (sr.1, v))

/-- One step of the cascade the specification describes: a matched rule
`sr` beats the winner `w` of the rules after it in the stylesheet
exactly when it declares `p` and its specificity is strictly higher
(equal specificity keeps the later rule's value). -/
def cascadeStep (sr : Specificity × Rule) (p : String)
    (w : Option (Specificity × Value)) : Option (Specificity × Value) :=
  match declLast sr.2.declarations p with
  | none => w
  | some v =>
    match w with
    | none => some (sr.1, v)
    | some (s', v') => if specLE sr.1 s' then some (s', v') else some (sr.1, v)

/-- The winner the specification describes: among the matched rules that
declare `p`, the one whose recorded specificity is highest; when two
such rules have equal specificity the one appearing later in the
stylesheet wins; within a rule its last declaration of `p` wins. -/
def cascadeWinner : List (Specificity × Rule) → String → Option (Specificity × Value)
| [], _ => none
| sr :: rest, p => cascadeStep sr p (cascadeWinner rest p)

theorem specLE_refl (x : Specificity) : specLE x x = true := by
  rcases specLE_total x x with h | h <;> exact h

theorem pmGet_pmInsert (m : PropertyMap) (k p : String) (v : Value) :
    pmGet (pmInsert m k v) p = if k = p then some v else pmGet m p := by
  simp only [pmGet, pmInsert, List.find?]
  by_cases h : k = p
  · simp [h]
  · simp [h, beq_eq_false_iff_ne.mpr h]

theorem pmGet_foldl_decls (decls : List Declaration) (vs : PropertyMap) (p : String) :
    pmGet (decls.foldl (fun m d => pmInsert m d.name d.value) vs) p =
      match declLast decls p with
      | some v => some v
      | none => pmGet vs p := by
  induction decls generalizing vs with
  | nil => rfl
  | cons d ds ih =>
    simp only [List.foldl_cons, declLast, ih, pmGet_pmInsert]
    cases declLast ds p with
    | some v => rfl
    | none =>
      by_cases h : d.name = p
      · simp [h]
      · simp [h]

theorem pmGet_foldl_rules (rs : List (Specificity × Rule)) (vs : PropertyMap) (p : String) :
    pmGet (rs.foldl
        (fun values sr =>
          sr.2.declarations.foldl (fun m d => pmInsert m d.name d.value) values)
        vs) p =
      match lastValS rs p with
      | some w => some w.2
      | none => pmGet vs p := by
  induction rs generalizing vs with
  | nil => rfl
  | cons sr rest ih =>
    simp only [List.foldl_cons, lastValS, ih, pmGet_foldl_decls]
    cases lastValS rest p with
    | some w => rfl
    | none =>
      cases declLast sr.2.declarations p with
      | some v => rfl
      | none => rfl

theorem mem_orderedInsertBy (le : α → α → Bool) (a x : α) (l : List α) :
    x ∈ orderedInsertBy le a l ↔ x = a ∨ x ∈ l := by
  induction l with
  | nil => simp [orderedInsertBy]
  | cons b l ih =>
    simp only [orderedInsertBy]
    by_cases h : le a b = true
    · simp [h, List.mem_cons]
    · simp only [if_neg h, List.mem_cons, ih]
      tauto

theorem pairwise_orderedInsertBy (le : α → α → Bool)
    (htot : ∀ a b, ¬ le a b = true → le b a = true)
    (htrans : ∀ a b c, le a b = true → le b c = true → le a c = true)
    (a : α) (l : List α) (h : l.Pairwise (fun x y => le x y = true)) :
    (orderedInsertBy le a l).Pairwise (fun x y => le x y = true) := by
  induction l with
  | nil => simp [orderedInsertBy]
  | cons b l ih =>
    rcases List.pairwise_cons.mp h with ⟨hb, hl⟩
    simp only [orderedInsertBy]
    by_cases hle : le a b = true
    · rw [if_pos hle]
      refine List.pairwise_cons.mpr ⟨?_, h⟩
      intro x hx
      rcases List.mem_cons.mp hx with rfl | hx
      · exact hle
      · exact htrans a b x hle (hb x hx)
    · rw [if_neg hle]
      refine List.pairwise_cons.mpr ⟨?_, ih hl⟩
      intro x hx
      rcases (mem_orderedInsertBy le a x l).mp hx with rfl | hx
      · exact htot x b hle
      · exact hb x hx

theorem pairwise_insertionSortBy (le : α → α → Bool)
    (htot : ∀ a b, ¬ le a b = true → le b a = true)
    (htrans : ∀ a b c, le a b = true → le b c = true → le a c = true)
    (l : List α) :
    (insertionSortBy le l).Pairwise (fun x y => le x y = true) := by
  induction l with
  | nil => simp [insertionSortBy]
  | cons a l ih =>
    exact pairwise_orderedInsertBy le htot htrans a _ ih

theorem lastValS_mem (l : List (Specificity × Rule)) (p : String)
    (s : Specificity) (v : Value) (h : lastValS l p = some (s, v)) :
    ∃ r, (s, r) ∈ l ∧ declLast r.declarations p = some v := by
  induction l with
  | nil => simp [lastValS] at h
  | cons sr rest ih =>
    simp only [lastValS] at h
    cases hrest : lastValS rest p with
    | some w =>
      rw [hrest] at h
      obtain ⟨r, hr, hd⟩ := ih (h ▸ hrest)
      exact ⟨r, List.mem_cons_of_mem _ hr, hd⟩
    | none =>
      rw [hrest] at h
      cases hd : declLast sr.2.declarations p with
      | none => rw [hd] at h; simp at h
      | some v₀ =>
        rw [hd] at h
        simp only [Option.map_some', Option.some.injEq, Prod.mk.injEq] at h
        obtain ⟨h1, h2⟩ := h
        refine ⟨sr.2, ?_, h2 ▸ hd⟩
        rw [← h1]
        simp

/-- Inserting one matched rule into an ascending-specificity-sorted list
combines its `p`-declaration with the existing last value exactly as one
cascade step. -/
theorem lastValS_orderedInsertBy (sr : Specificity × Rule)
    (L : List (Specificity × Rule)) (p : String)
    (hL : L.Pairwise (fun x y => specLE x.1 y.1 = true)) :
    lastValS (orderedInsertBy (fun a b => specLE a.1 b.1) sr L) p =
      cascadeStep sr p (lastValS L p) := by
  induction L with
  | nil =>
    simp only [orderedInsertBy, lastValS, cascadeStep]
    cases declLast sr.2.declarations p <;> rfl
  | cons b l ih =>
    rcases List.pairwise_cons.mp hL with ⟨hb, hl⟩
    simp only [orderedInsertBy]
    by_cases hle : specLE sr.1 b.1 = true
    · rw [if_pos hle]
      show (match lastValS (b :: l) p with
        | some w => some w
        | none => (declLast sr.2.declarations p).map (fun v => (sr.1, v))) = _
      rw [cascadeStep]
      cases hd : declLast sr.2.declarations p with
      | none => cases lastValS (b :: l) p <;> simp
      | some v =>
        cases hv : lastValS (b :: l) p with
        | none => simp
        | some w =>
          obtain ⟨s', v'⟩ := w
          obtain ⟨r', hr', -⟩ := lastValS_mem _ _ _ _ hv
          have hs : specLE sr.1 s' = true := by
            rcases List.mem_cons.mp hr' with heq | hmem
            · have hfst : s' = b.1 := congrArg Prod.fst heq
              exact hfst ▸ hle
            · exact specLE_trans hle (hb (s', r') hmem)
          simp [hs]
    · rw [if_neg hle]
      show (match lastValS (orderedInsertBy (fun a b => specLE a.1 b.1) sr l) p with
        | some w => some w
        | none => (declLast b.2.declarations p).map (fun v => (b.1, v))) = _
      rw [ih hl]
      cases hd : declLast sr.2.declarations p with
      | none =>
        simp only [cascadeStep, hd, lastValS]
      | some v =>
        cases hv : lastValS l p with
        | some w =>
          obtain ⟨s', v'⟩ := w
          have hbl : lastValS (b :: l) p = some (s', v') := by
            simp only [lastValS, hv]
          simp only [cascadeStep, hd, hv, hbl]
          by_cases hs : specLE sr.1 s' = true
          · simp only [if_pos hs]
          · simp only [if_neg hs]
        | none =>
          have hbl : lastValS (b :: l) p =
              (declLast b.2.declarations p).map (fun v => (b.1, v)) := by
            simp only [lastValS, hv]
          simp only [cascadeStep, hd, hv, hbl]
          cases declLast b.2.declarations p with
          | none => rfl
          | some v₀ =>
            simp only [Option.map_some']
            rw [if_neg hle]

/-- The survivor of the ascending stable sort followed by in-order
insertion is exactly the cascade winner. -/
theorem lastValS_sort_eq_cascadeWinner (l : List (Specificity × Rule)) (p : String) :
    lastValS (insertionSortBy (fun a b => specLE a.1 b.1) l) p = cascadeWinner l p := by
  induction l with
  | nil => rfl
  | cons sr rest ih =>
    have hsorted := pairwise_insertionSortBy (fun a b : Specificity × Rule => specLE a.1 b.1)
      (fun a b h => specLE_of_not a.1 b.1 h)
      (fun a b c h1 h2 => specLE_trans h1 h2) rest
    show lastValS (orderedInsertBy (fun a b => specLE a.1 b.1) sr
      (insertionSortBy (fun a b => specLE a.1 b.1) rest)) p = _
    rw [lastValS_orderedInsertBy sr _ p hsorted, ih]
    rfl

theorem cascadeWinner_eq_none (l : List (Specificity × Rule)) (p : String)
    (h : cascadeWinner l p = none) :
    ∀ sr ∈ l, declLast sr.2.declarations p = none := by
  induction l with
  | nil => simp
  | cons sr rest ih =>
    intro x hx
    simp only [cascadeWinner, cascadeStep] at h
    cases hd : declLast sr.2.declarations p with
    | some v =>
      simp only [hd] at h
      cases hrest : cascadeWinner rest p with
      | none => simp only [hrest] at h; simp at h
      | some w =>
        obtain ⟨s', v'⟩ := w
        simp only [hrest] at h
        by_cases hs : specLE sr.1 s' = true <;> simp [hs] at h
    | none =>
      simp only [hd] at h
      rcases List.mem_cons.mp hx with rfl | hx
      · exact hd
      · exact ih h x hx

/-- Maximality of the cascade winner: its recorded specificity is at
least that of every matched rule that declares the property. -/
theorem cascadeWinner_max (l : List (Specificity × Rule)) (p : String) :
    ∀ (s : Specificity) (v : Value), cascadeWinner l p = some (s, v) →
      ∀ sr ∈ l, declLast sr.2.declarations p ≠ none → specLE sr.1 s = true := by
  induction l with
  | nil => simp
  | cons sr rest ih =>
    intro s v h x hx hdx
    simp only [cascadeWinner, cascadeStep] at h
    cases hd : declLast sr.2.declarations p with
    | none =>
      simp only [hd] at h
      rcases List.mem_cons.mp hx with rfl | hx
      · exact absurd hd hdx
      · exact ih s v h x hx hdx
    | some v₀ =>
      simp only [hd] at h
      cases hrest : cascadeWinner rest p with
      | none =>
        simp only [hrest] at h
        simp only [Option.some.injEq, Prod.mk.injEq] at h
        obtain ⟨h1, -⟩ := h
        rcases List.mem_cons.mp hx with rfl | hx
        · exact h1 ▸ specLE_refl x.1
        · exact absurd (cascadeWinner_eq_none rest p hrest x hx) hdx
      | some w =>
        obtain ⟨s', v'⟩ := w
        simp only [hrest] at h
        by_cases hs : specLE sr.1 s' = true
        · rw [if_pos hs] at h
          simp only [Option.some.injEq, Prod.mk.injEq] at h
          obtain ⟨h1, -⟩ := h
          rcases List.mem_cons.mp hx with rfl | hx
          · exact h1 ▸ hs
          · exact h1 ▸ ih s' v' hrest x hx hdx
        · rw [if_neg hs] at h
          simp only [Option.some.injEq, Prod.mk.injEq] at h
          obtain ⟨h1, -⟩ := h
          rcases List.mem_cons.mp hx with rfl | hx
          · exact h1 ▸ specLE_refl x.1
          · have h2 := ih s' v' hrest x hx hdx
            have h3 := specLE_of_not sr.1 s' hs
            exact h1 ▸ specLE_trans h2 h3

/-- A cascade winner really is one of the matched rules, declaring the
winning value as its last declaration of the property. -/
theorem cascadeWinner_mem (l : List (Specificity × Rule)) (p : String)
    (s : Specificity) (v : Value) (h : cascadeWinner l p = some (s, v)) :
    ∃ r, (s, r) ∈ l ∧ declLast r.declarations p = some v := by
  induction l with
  | nil => simp [cascadeWinner] at h
  | cons sr rest ih =>
    simp only [cascadeWinner, cascadeStep] at h
    cases hd : declLast sr.2.declarations p with
    | none =>
      simp only [hd] at h
      obtain ⟨r, hr, hdr⟩ := ih h
      exact ⟨r, List.mem_cons_of_mem _ hr, hdr⟩
    | some v₀ =>
      simp only [hd] at h
      cases hrest : cascadeWinner rest p with
      | none =>
        simp only [hrest] at h
        simp only [Option.some.injEq, Prod.mk.injEq] at h
        obtain ⟨h1, h2⟩ := h
        refine ⟨sr.2, ?_, h2 ▸ hd⟩
        rw [← h1]
        simp
      | some w =>
        obtain ⟨s', v'⟩ := w
        simp only [hrest] at h
        by_cases hs : specLE sr.1 s' = true
        · rw [if_pos hs] at h
          obtain ⟨r, hr, hdr⟩ := ih (h ▸ hrest)
          exact ⟨r, List.mem_cons_of_mem _ hr, hdr⟩
        · rw [if_neg hs] at h
          simp only [Option.some.injEq, Prod.mk.injEq] at h
          obtain ⟨h1, h2⟩ := h
          refine ⟨sr.2, ?_, h2 ▸ hd⟩
          rw [← h1]
          simp

/-! ## Shape preservation (claims C2, C5) -/

mutual
/-- A styled node mirrors a document node: it references that node and
has exactly one styled child per document child, in order, recursively. -/
def preserves_shape : StyledNode → Node → Prop
| .mk nd _ kids, n => nd = n ∧ preserves_shape_list kids n.children

def preserves_shape_list : List StyledNode → List Node → Prop
| [], [] => True
| s :: ss, m :: ms => preserves_shape s m ∧ preserves_shape_list ss ms
| _, _ => False
end

mutual
/-- The tree contains only element and text nodes. -/
def elem_text_only : Node → Bool
| .mk children nt =>
  (match nt with
   | NodeType.Element _ => true
   | NodeType.Text _ => true
   | _ => false) && elem_text_only_list children

def elem_text_only_list : List Node → Bool
| [] => true
| n :: ns => elem_text_only n && elem_text_only_list ns
end

theorem style_tree_children_shape (sheet : Stylesheet) (k : Nat)
    (hrec : ∀ m : Node, sizeOf m ≤ k → elem_text_only m = true →
      ∃ sn, style_tree m sheet = some sn ∧ preserves_shape sn m) :
    ∀ cs : List Node, (∀ c ∈ cs, sizeOf c ≤ k) → elem_text_only_list cs = true →
      ∃ ks, style_tree_children cs sheet = some ks ∧ preserves_shape_list ks cs := by
  intro cs
  induction cs with
  | nil =>
    intro _ _
    exact ⟨[], rfl, trivial⟩
  | cons c cs ih =>
    intro hsz hok
    simp only [elem_text_only_list, Bool.and_eq_true] at hok
    obtain ⟨sn, hsn, hshape⟩ := hrec c (hsz c (List.mem_cons_self c cs)) hok.1
    obtain ⟨ks, hks, hkshape⟩ := ih (fun x hx => hsz x (List.mem_cons_of_mem c hx)) hok.2
    refine ⟨sn :: ks, ?_, hshape, hkshape⟩
    simp only [style_tree_children, hsn, hks]

theorem style_tree_shape_aux (sheet : Stylesheet) :
    ∀ (k : Nat) (n : Node), sizeOf n ≤ k → elem_text_only n = true →
      ∃ sn, style_tree n sheet = some sn ∧ preserves_shape sn n := by
  intro k
  induction k with
  | zero =>
    intro n hn
    obtain ⟨children, nt⟩ := n
    simp [Node.mk.sizeOf_spec] at hn
  | succ k ih =>
    intro n hn hok
    obtain ⟨children, nt⟩ := n
    have hchild : ∀ c ∈ children, sizeOf c ≤ k := by
      intro c hc
      have h1 := List.sizeOf_lt_of_mem hc
      have h2 : sizeOf (Node.mk children nt) = 1 + sizeOf children + sizeOf nt := by
        simp [Node.mk.sizeOf_spec]
      have h3 : 0 < sizeOf nt := by cases nt <;> simp
      omega
    simp only [elem_text_only, Bool.and_eq_true] at hok
    obtain ⟨hnt, hcs⟩ := hok
    obtain ⟨ks, hks, hkshape⟩ :=
      style_tree_children_shape sheet k ih children hchild hcs
    cases nt with
    | Element e =>
      refine ⟨.mk (.mk children (.Element e)) (specified_values e sheet) ks, ?_, rfl, ?_⟩
      · simp only [style_tree, hks]
      · exact hkshape
    | Text s =>
      refine ⟨.mk (.mk children (.Text s)) [] ks, ?_, rfl, ?_⟩
      · simp only [style_tree, hks]
      · exact hkshape
    | ProcessingInstruction p => simp at hnt
    | Comment s => simp at hnt

/-! ## Claim theorems: style resolution -/

/-- C1: for every element, stylesheet and property name, the property
map computed by `specified_values` holds exactly the cascade winner's
value: the last declaration of that property from the matching rule with
the highest recorded specificity, where equal-specificity ties go to the
rule appearing later in the stylesheet; moreover the winner really is
one of the matching rules and its specificity is maximal among the
matching rules declaring the property. -/
theorem c1_specified_values_highest_specificity_wins
    (e : ElementData) (sheet : Stylesheet) (p : String) :
    pmGet (specified_values e sheet) p =
      (cascadeWinner (matching_rules e sheet) p).map Prod.snd
    ∧ (∀ s v, cascadeWinner (matching_rules e sheet) p = some (s, v) →
        (∃ r, (s, r) ∈ matching_rules e sheet ∧
          declLast r.declarations p = some v) ∧
        ∀ sr ∈ matching_rules e sheet, declLast sr.2.declarations p ≠ none →
          specLE sr.1 s = true) := by
  constructor
  · simp only [specified_values]
    rw [pmGet_foldl_rules, lastValS_sort_eq_cascadeWinner]
    cases cascadeWinner (matching_rules e sheet) p with
    | none => rfl
    | some w => rfl
  · intro s v h
    exact ⟨cascadeWinner_mem _ _ _ _ h, cascadeWinner_max _ _ s v h⟩

theorem c1_specified_values_highest_specificity_wins_witness :
    pmGet
      (specified_values ⟨"div", [("id", "main")]⟩
        ⟨[⟨[.Simple ⟨some "div", none, []⟩],
           [⟨"color", .Keyword "blue"⟩]⟩,
          ⟨[.Simple ⟨none, some "main", []⟩],
           [⟨"color", .Keyword "red"⟩]⟩]⟩) "color" =
      some (Value.Keyword "red") := by
  have h := c1_specified_values_highest_specificity_wins
    ⟨"div", [("id", "main")]⟩
    ⟨[⟨[.Simple ⟨some "div", none, []⟩],
       [⟨"color", .Keyword "blue"⟩]⟩,
      ⟨[.Simple ⟨none, some "main", []⟩],
       [⟨"color", .Keyword "red"⟩]⟩]⟩ "color"
  exact h.1.trans (by rfl)

/-- C5: on document trees containing only element and text nodes,
`style_tree` succeeds and preserves the tree's shape: the returned
styled node references the given root node and has exactly one styled
child per child of the root, in order, recursively at every depth. -/
theorem c5_style_tree_preserves_shape (n : Node) (sheet : Stylesheet)
    (h : elem_text_only n = true) :
    ∃ sn, style_tree n sheet = some sn ∧ preserves_shape sn n :=
  style_tree_shape_aux sheet (sizeOf n) n (Nat.le_refl _) h

theorem c5_style_tree_preserves_shape_witness :
    ∃ sn, style_tree (elem "div" [] [text "hi", elem "p" [] []]) ⟨[]⟩ = some sn ∧
      preserves_shape sn (elem "div" [] [text "hi", elem "p" [] []]) :=
  c5_style_tree_preserves_shape (elem "div" [] [text "hi", elem "p" [] []]) ⟨[]⟩ (by rfl)

/-- C2 (failing part): `style_tree` is not total — a comment or
processing-instruction node reaches the source's `todo!()` and panics
instead of receiving an empty property mapping; element and text nodes
do get their mapping (empty for text). -/
theorem c2_style_tree_panics_on_comment_node (sheet : Stylesheet) (s : String)
    (t d : String) (cs cs' : List Node) :
    style_tree (Node.mk cs (NodeType.Comment s)) sheet = none
    ∧ style_tree (Node.mk cs' (NodeType.ProcessingInstruction ⟨t, d⟩)) sheet = none
    ∧ style_tree (text s) sheet = some (.mk (text s) [] []) := by
  refine ⟨rfl, rfl, ?_⟩
  simp only [style_tree, text, style_tree_children]

/-- C3: the resolved display is `Block` exactly when the `display`
property is the keyword `block`, `None` exactly when it is the keyword
`none`, and `Inline` in every other case (property absent, a non-keyword
value, or any other keyword). -/
theorem c3_display_classification (sn : StyledNode) :
    (sn.display = Display.Block ↔ sn.value "display" = some (Value.Keyword "block"))
    ∧ (sn.display = Display.None ↔ sn.value "display" = some (Value.Keyword "none"))
    ∧ ((sn.value "display" ≠ some (Value.Keyword "block") ∧
        sn.value "display" ≠ some (Value.Keyword "none")) →
        sn.display = Display.Inline) := by
  cases hv : sn.value "display" with
  | none => simp [StyledNode.display, hv]
  | some val =>
    cases val with
    | Keyword s =>
      by_cases hb : s = "block"
      · subst hb
        simp [StyledNode.display, hv]
      · by_cases hn : s = "none"
        · subst hn
          simp [StyledNode.display, hv]
        · simp [StyledNode.display, hv, hb, hn]
    | Length q u => simp [StyledNode.display, hv]
    | ColorValue c => simp [StyledNode.display, hv]

theorem c3_display_classification_witness :
    (StyledNode.mk (text "t") [("display", Value.Keyword "none")] []).display =
      Display.None :=
  ((c3_display_classification
    (StyledNode.mk (text "t") [("display", Value.Keyword "none")] [])).2.1).mpr rfl

/-- C6: an element matches a simple selector iff the selector's tag
name, when present, equals the element's tag name; the selector's id,
when present, equals the element's `id` attribute value; and every class
named in the selector occurs among the space-separated tokens of the
element's `class` attribute (so an element without a `class` attribute
matches only selectors with no class components). -/
theorem c6_matches_simple_selector_iff (e : ElementData) (selector : SimpleSelector) :
    matches_simple_selector e selector = true ↔
      ((∀ t, selector.tag_name = some t → e.tag_name = t)
       ∧ (∀ i, selector.id = some i → e.id = some i)
       ∧ (∀ c ∈ selector.class', c ∈ e.classes)) := by
  obtain ⟨tn, idv, cls⟩ := selector
  simp only [matches_simple_selector]
  cases tn with
  | some t =>
    by_cases ht : e.tag_name = t
    · simp only [ht, Option.any_some, bne_self_eq_false, if_false]
      cases idv with
      | some i =>
        by_cases hi : e.id = some i
        · simp [hi, List.any_eq_true]
        · simp [hi, bne_iff_ne, List.any_eq_true]
      | none => simp [List.any_eq_true]
    · simp [bne_iff_ne, ht]
  | none =>
    simp only [Option.any_none, Bool.false_eq_true, if_false]
    cases idv with
    | some i =>
      by_cases hi : e.id = some i
      · simp [hi, List.any_eq_true]
      · simp [hi, bne_iff_ne, List.any_eq_true]
    | none => simp [List.any_eq_true]

theorem c6_matches_simple_selector_iff_witness :
    matches_simple_selector ⟨"p", [("class", "a b")]⟩ ⟨some "p", none, ["b"]⟩ = true :=
  (c6_matches_simple_selector_iff ⟨"p", [("class", "a b")]⟩ ⟨some "p", none, ["b"]⟩).mpr
    (by refine ⟨?_, ?_, ?_⟩ <;> decide)

/-! ## css.rs parser

The Rust parser walks a `String` through a byte position; every
observation it makes (`next_char`, `consume_char`, `consume_while`,
`starts_with`, `eof`) is through the character stream, so the state is
modelled as the remaining `List Char`.  Loops take a fuel argument; the
entry points supply `length + 1`, which suffices because every loop
iteration consumes at least one character. -/

namespace Css

/-- `css::valid_identifier_char`. -/
def valid_identifier_char (c : Char) : Bool :=
  (decide ('a' ≤ c) && decide (c ≤ 'z')) || (decide ('A' ≤ c) && decide (c ≤ 'Z')) ||
    (decide ('0' ≤ c) && decide (c ≤ '9')) || c == '-' || c == '_'

/-- `Parser::consume_while`: the consumed characters and the rest. -/
def consume_while (p : Char → Bool) (s : List Char) : List Char × List Char :=
  (s.takeWhile p, s.dropWhile p)

/-- `Parser::consume_whitespace` (`char::is_whitespace` restricted to
the ASCII whitespace the inputs of interest contain). -/
def consume_whitespace (s : List Char) : List Char :=
  s.dropWhile Char.isWhitespace

/-- `Parser::parse_identifier`. -/
def parse_identifier (s : List Char) : List Char × List Char :=
  consume_while valid_identifier_char s

/-- Rust `char::to_ascii_lowercase`. -/
def to_ascii_lowercase_char (c : Char) : Char :=
  if 'A' ≤ c ∧ c ≤ 'Z' then Char.ofNat (c.toNat + 32) else c

/-- The digit-or-dot character set of `Parser::parse_float`. -/
def float_char (c : Char) : Bool :=
  (decide ('0' ≤ c) && decide (c ≤ '9')) || c == '.'

def digit_char (c : Char) : Bool :=
  decide ('0' ≤ c) && decide (c ≤ '9')

def digitsToNat (ds : List Char) : Nat :=
  ds.foldl (fun n c => n * 10 + (c.toNat - '0'.toNat)) 0

/-- Rust `f32::from_str` on a string made of digits and dots: at most
one dot and at least one digit, otherwise an `unwrap` panic. -/
def parseFloatChars (ds : List Char) : Option ℚ :=
  let intPart := ds.takeWhile digit_char
  let rest := ds.dropWhile digit_char
  match rest with
  | [] => if ds.isEmpty then none else some (digitsToNat intPart)
  | '.' :: frac =>
    if frac.all digit_char then
      if intPart.isEmpty && frac.isEmpty then none
      else some ((digitsToNat intPart : ℚ) + (digitsToNat frac : ℚ) / (10 ^ frac.length))
    else none
  | _ => none

/-- `Parser::parse_float`. -/
def parse_float (s : List Char) : Option (ℚ × List Char) :=
  let (ds, s1) := consume_while float_char s
  (parseFloatChars ds).map (fun q => (q, s1))

/-- `Parser::parse_unit`: the identifier must ASCII-lowercase to `px`,
anything else is the `panic!("unrecognized unit")`. -/
def parse_unit (s : List Char) : Option (CssUnit × List Char) :=
  let (id, s1) := parse_identifier s
  if id.map to_ascii_lowercase_char = ['p', 'x'] then some (CssUnit.Px, s1)
  else none

/-- `Parser::parse_length`. -/
def parse_length (s : List Char) : Option (Value × List Char) :=
  match parse_float s with
  | none => none
  | some (f, s1) =>
    match parse_unit s1 with
    | none => none
    | some (u, s2) => some (Value.Length f u, s2)

def hexVal (c : Char) : Option Nat :=
  if decide ('0' ≤ c) && decide (c ≤ '9') then some (c.toNat - '0'.toNat)
  else if decide ('a' ≤ c) && decide (c ≤ 'f') then some (c.toNat - 'a'.toNat + 10)
  else if decide ('A' ≤ c) && decide (c ≤ 'F') then some (c.toNat - 'A'.toNat + 10)
  else none

/-- `Parser::parse_hex_pair`: two characters interpreted base 16; a
short slice or a non-hex digit panics. -/
def parse_hex_pair (s : List Char) : Option (Nat × List Char) :=
  match s with
  | c1 :: c2 :: rest =>
    match hexVal c1, hexVal c2 with
    | some h1, some h2 => some (h1 * 16 + h2, rest)
    | _, _ => none
  | _ => none

/-- `Parser::parse_color`. -/
def parse_color (s : List Char) : Option (Value × List Char) :=
  match s with
  | '#' :: s1 =>
    match parse_hex_pair s1 with
    | none => none
    | some (r, s2) =>
      match parse_hex_pair s2 with
      | none => none
      | some (g, s3) =>
        match parse_hex_pair s3 with
        | none => none
        | some (b, s4) => some (Value.ColorValue ⟨r, g, b, 255⟩, s4)
  | _ => none

/-- `Parser::parse_value`. -/
def parse_value (s : List Char) : Option (Value × List Char) :=
  match s with
  | [] => none
  | c :: _ =>
    if digit_char c then parse_length s
    else if c == '#' then parse_color s
    else
      let (id, s1) := parse_identifier s
      some (Value.Keyword (String.mk id), s1)

/-- `Parser::parse_declaration`. -/
def parse_declaration (s : List Char) : Option (Declaration × List Char) :=
  let (name, s1) := parse_identifier s
  let s2 := consume_whitespace s1
  match s2 with
  | ':' :: s3 =>
    let s4 := consume_whitespace s3
    match parse_value s4 with
    | none => none
    | some (v, s5) =>
      let s6 := consume_whitespace s5
      match s6 with
      | ';' :: s7 => some (⟨String.mk name, v⟩, s7)
      | _ => none
  | _ => none

/-- The loop of `Parser::parse_declarations`. -/
def parse_declarations_aux : Nat → List Declaration → List Char →
    Option (List Declaration × List Char)
| 0, _, _ => none
| fuel+1, acc, s =>
  let s1 := consume_whitespace s
  match s1 with
  | [] => none
  | '\x7d' :: s2 => some (acc, s2)
  | _ =>
    match parse_declaration s1 with
    | none => none
    | some (d, s2) => parse_declarations_aux fuel (acc ++ [d]) s2

/-- `Parser::parse_declarations`. -/
def parse_declarations (s : List Char) : Option (List Declaration × List Char) :=
  match s with
  | '\x7b' :: s1 => parse_declarations_aux (s1.length + 1) [] s1
  | _ => none

/-- The `while !self.eof()` loop of `Parser::parse_simple_selector`. -/
def parse_simple_selector_aux : Nat → SimpleSelector → List Char →
    SimpleSelector × List Char
| 0, sel, s => (sel, s)
| fuel+1, sel, s =>
  match s with
  | [] => (sel, s)
  | c :: s1 =>
    if c == '#' then
      let (name, s2) := parse_identifier s1
      parse_simple_selector_aux fuel { sel with id := some (String.mk name) } s2
    else if c == '.' then
      let (name, s2) := parse_identifier s1
      parse_simple_selector_aux fuel
        { sel with class' := sel.class' ++ [String.mk name] } s2
    else if c == '*' then
      parse_simple_selector_aux fuel sel s1
    else if valid_identifier_char c then
      let (name, s2) := parse_identifier s
      parse_simple_selector_aux fuel { sel with tag_name := some (String.mk name) } s2
    else (sel, s)

/-- `Parser::parse_simple_selector`. -/
def parse_simple_selector (s : List Char) : SimpleSelector × List Char :=
  parse_simple_selector_aux (s.length + 1) ⟨none, none, []⟩ s

/-- The loop of `Parser::parse_selectors`: selectors separated by
commas, ended by the opening brace (left unconsumed), anything else is
the `panic!("Unexpected character ...")`. -/
def parse_selectors_aux : Nat → List Selector → List Char →
    Option (List Selector × List Char)
| 0, _, _ => none
| fuel+1, acc, s =>
  let (ss, s1) := parse_simple_selector s
  let acc' := acc ++ [Selector.Simple ss]
  let s2 := consume_whitespace s1
  match s2 with
  | ',' :: s3 => parse_selectors_aux fuel acc' (consume_whitespace s3)
  | '\x7b' :: _ => some (acc', s2)
  | _ => none

/-- `Parser::parse_selectors`: parse the comma-separated list, then
return it sorted with highest specificity first (Rust
`sort_by(|a, b| b.specificity().cmp(&a.specificity()))`, a stable
descending sort). -/
def parse_selectors (s : List Char) : Option (List Selector × List Char) :=
  match parse_selectors_aux (s.length + 1) [] s with
  | none => none
  | some (sels, s1) =>
    some (insertionSortBy (fun a b => specLE b.specificity a.specificity) sels, s1)

/-- `Parser::parse_rule`. -/
def parse_rule (s : List Char) : Option (Rule × List Char) :=
  match parse_selectors s with
  | none => none
  | some (sels, s1) =>
    match parse_declarations s1 with
    | none => none
    | some (decls, s2) => some (⟨sels, decls⟩, s2)

/-- The loop of `Parser::parse_rules`. -/
def parse_rules_aux : Nat → List Rule → List Char → Option (List Rule × List Char)
| 0, _, _ => none
| fuel+1, acc, s =>
  let s1 := consume_whitespace s
  match s1 with
  | [] => some (acc, [])
  | _ =>
    match parse_rule s1 with
    | none => none
    | some (r, s2) => parse_rules_aux fuel (acc ++ [r]) s2

/-- `css::parse`. -/
def parse (source : List Char) : Option Stylesheet :=
  (parse_rules_aux (source.length + 1) [] source).map (fun rs => ⟨rs.1⟩)

end Css

example :
    Css.parse "h1 \x7b font-size: 20px; \x7d".data =
      some ⟨[⟨[.Simple ⟨some "h1", none, []⟩],
              [⟨"font-size", .Length 20 .Px⟩]⟩]⟩ := by
  rfl

example : Css.parse "h1 \x7b width: 10em; \x7d".data = none := by rfl

example :
    Css.parse "h1, p.note \x7b margin: auto; \x7d".data =
      some ⟨[⟨[.Simple ⟨some "p", none, ["note"]⟩, .Simple ⟨some "h1", none, []⟩],
              [⟨"margin", .Keyword "auto"⟩]⟩]⟩ := by
  rfl

/-! ## Fatal non-px units (claim C4) -/

theorem takeWhile_nil_of_head (p : Char → Bool) (l : List Char)
    (h : ∀ c, l.head? = some c → p c = false) : l.takeWhile p = [] := by
  cases l with
  | nil => rfl
  | cons c cs => simp [List.takeWhile_cons, h c rfl]

theorem dropWhile_self_of_head (p : Char → Bool) (l : List Char)
    (h : ∀ c, l.head? = some c → p c = false) : l.dropWhile p = l := by
  cases l with
  | nil => rfl
  | cons c cs => simp [List.dropWhile_cons, h c rfl]

theorem takeWhile_append_all (p : Char → Bool) (u rest : List Char)
    (hu : u.all p = true) (hrest : ∀ c, rest.head? = some c → p c = false) :
    (u ++ rest).takeWhile p = u ∧ (u ++ rest).dropWhile p = rest := by
  induction u with
  | nil =>
    simp only [List.nil_append]
    exact ⟨takeWhile_nil_of_head p rest hrest, dropWhile_self_of_head p rest hrest⟩
  | cons c cs ih =>
    simp only [List.all_cons, Bool.and_eq_true] at hu
    obtain ⟨hc, hcs⟩ := hu
    have hih := ih hcs
    simp [List.takeWhile_cons, List.dropWhile_cons, hc, hih.1, hih.2]

namespace Css

/-- The unit parser succeeds only on identifiers that ASCII-lowercase to
`px`; everything else is the fatal `panic!("unrecognized unit")`. -/
theorem parse_unit_fails_iff (s : List Char) :
    parse_unit s = none ↔
      (parse_identifier s).1.map to_ascii_lowercase_char ≠ ['p', 'x'] := by
  simp only [parse_unit]
  by_cases h : (parse_identifier s).1.map to_ascii_lowercase_char = ['p', 'x'] <;>
    simp [h]

/-- A failing unit makes the whole length value fail: nothing is clamped
or defaulted. -/
theorem parse_length_fails_of_bad_unit (s : List Char) (q : ℚ) (s1 : List Char)
    (hf : parse_float s = some (q, s1)) (hu : parse_unit s1 = none) :
    parse_length s = none := by
  simp only [parse_length, hf, hu]

theorem parse_declaration_bad_unit (u : List Char)
    (hu : u.all valid_identifier_char = true)
    (hhead : ∀ c, u.head? = some c → float_char c = false)
    (hne : u.map to_ascii_lowercase_char ≠ ['p', 'x']) :
    parse_declaration ('w' :: 'i' :: 'd' :: 't' :: 'h' :: ':' :: ' ' :: '1' :: '0' ::
      (u ++ [';', ' ', '\x7d'])) = none := by
  have hws : ∀ c, (u ++ [';', ' ', '\x7d']).head? = some c → float_char c = false := by
    intro c hc
    cases u with
    | nil =>
      simp only [List.nil_append, List.head?_cons, Option.some.injEq] at hc
      subst hc; decide
    | cons a as =>
      simp only [List.cons_append, List.head?_cons, Option.some.injEq] at hc
      subst hc
      exact hhead a rfl
  have hfl1 : (u ++ [';', ' ', '\x7d']).takeWhile float_char = [] :=
    takeWhile_nil_of_head _ _ hws
  have hfl2 : (u ++ [';', ' ', '\x7d']).dropWhile float_char = u ++ [';', ' ', '\x7d'] :=
    dropWhile_self_of_head _ _ hws
  have hid := takeWhile_append_all valid_identifier_char u [';', ' ', '\x7d'] hu
    (by intro c hc; simp only [List.head?_cons, Option.some.injEq] at hc; subst hc; decide)
  simp +decide [parse_declaration, parse_identifier, consume_while, consume_whitespace,
    parse_value, parse_length, parse_float, parse_unit, parseFloatChars, digitsToNat,
    List.takeWhile_cons, List.dropWhile_cons, hfl1, hfl2, hid.1, hid.2, hne]

theorem parse_simple_selector_aux_stop (fuel : Nat) (sel : SimpleSelector)
    (rest : List Char) :
    parse_simple_selector_aux fuel sel (' ' :: rest) = (sel, ' ' :: rest) := by
  cases fuel with
  | zero => rfl
  | succ f => simp +decide [parse_simple_selector_aux]

theorem parse_selectors_h1 (body : List Char) :
    parse_selectors ('h' :: '1' :: ' ' :: '\x7b' :: body) =
      some ([Selector.Simple ⟨some "h1", none, []⟩], '\x7b' :: body) := by
  simp +decide [parse_selectors, parse_selectors_aux, parse_simple_selector,
    parse_simple_selector_aux, parse_simple_selector_aux_stop, parse_identifier,
    consume_while, consume_whitespace, List.takeWhile_cons, List.dropWhile_cons,
    insertionSortBy, orderedInsertBy]

theorem parse_rule_bad_unit (u : List Char)
    (hu : u.all valid_identifier_char = true)
    (hhead : ∀ c, u.head? = some c → float_char c = false)
    (hne : u.map to_ascii_lowercase_char ≠ ['p', 'x']) :
    parse_rule ('h' :: '1' :: ' ' :: '\x7b' :: ' ' :: 'w' :: 'i' :: 'd' :: 't' :: 'h' ::
      ':' :: ' ' :: '1' :: '0' :: (u ++ [';', ' ', '\x7d'])) = none := by
  have hsel := parse_selectors_h1
    (' ' :: 'w' :: 'i' :: 'd' :: 't' :: 'h' :: ':' :: ' ' :: '1' :: '0' ::
      (u ++ [';', ' ', '\x7d']))
  have hdecl := parse_declaration_bad_unit u hu hhead hne
  simp +decide [parse_rule, hsel, parse_declarations, parse_declarations_aux,
    consume_whitespace, List.dropWhile_cons, hdecl]

end Css

/-- C4: a length value with a unit other than `px` (ASCII-case-
insensitively) is a fatal parse error: the unit parser rejects exactly
the identifiers that do not lowercase to `px`, the failure makes the
whole length value fail rather than clamp or default, and for every
identifier `u` not spelling `px` the full `css::parse` of a stylesheet
containing the length `10u` fails, producing no stylesheet. -/
theorem c4_non_px_unit_is_fatal :
    (∀ s : List Char, Css.parse_unit s = none ↔
      (Css.parse_identifier s).1.map Css.to_ascii_lowercase_char ≠ ['p', 'x'])
    ∧ (∀ (s : List Char) (q : ℚ) (s1 : List Char),
        Css.parse_float s = some (q, s1) → Css.parse_unit s1 = none →
          Css.parse_length s = none)
    ∧ (∀ u : List Char, u.all Css.valid_identifier_char = true →
        (∀ c, u.head? = some c → Css.float_char c = false) →
        u.map Css.to_ascii_lowercase_char ≠ ['p', 'x'] →
        Css.parse ("h1 \x7b width: 10".data ++ u ++ "; \x7d".data) = none) := by
  refine ⟨Css.parse_unit_fails_iff, Css.parse_length_fails_of_bad_unit, ?_⟩
  intro u hu hhead hne
  show Css.parse ('h' :: '1' :: ' ' :: '\x7b' :: ' ' :: 'w' :: 'i' :: 'd' :: 't' :: 'h' ::
    ':' :: ' ' :: '1' :: '0' :: (u ++ [';', ' ', '\x7d'])) = none
  have hrule := Css.parse_rule_bad_unit u hu hhead hne
  simp +decide [Css.parse, Css.parse_rules_aux, Css.consume_whitespace,
    List.dropWhile_cons, hrule]

theorem c4_non_px_unit_is_fatal_witness :
    Css.parse "h1 \x7b width: 10em; \x7d".data = none :=
  c4_non_px_unit_is_fatal.2.2 ['e', 'm'] (by decide) (by decide) (by decide)

/-! ## Selector-list sortedness and match_rule maximality (claim C8) -/

namespace Css

theorem parse_selectors_sorted (s : List Char) (sels : List Selector) (s1 : List Char)
    (h : parse_selectors s = some (sels, s1)) :
    sels.Pairwise (fun a b => specLE b.specificity a.specificity = true) := by
  simp only [parse_selectors] at h
  cases haux : parse_selectors_aux (s.length + 1) [] s with
  | none => rw [haux] at h; exact Option.noConfusion h
  | some p =>
    simp only [haux, Option.some.injEq, Prod.mk.injEq] at h
    obtain ⟨h1, -⟩ := h
    rw [← h1]
    exact pairwise_insertionSortBy
      (fun a b : Selector => specLE b.specificity a.specificity)
      (fun a b hab => specLE_of_not _ _ hab)
      (fun a b c hab hbc => specLE_trans hbc hab) p.1

theorem parse_rule_sorted (s : List Char) (r : Rule) (s1 : List Char)
    (h : parse_rule s = some (r, s1)) :
    r.selectors.Pairwise (fun a b => specLE b.specificity a.specificity = true) := by
  simp only [parse_rule] at h
  cases hsel : parse_selectors s with
  | none => rw [hsel] at h; exact Option.noConfusion h
  | some p =>
    simp only [hsel] at h
    cases hdecl : parse_declarations p.2 with
    | none => rw [hdecl] at h; exact Option.noConfusion h
    | some q =>
      simp only [hdecl, Option.some.injEq, Prod.mk.injEq] at h
      obtain ⟨h1, -⟩ := h
      have := parse_selectors_sorted s p.1 p.2
      rw [← h1]
      exact this (by rw [hsel])

theorem parse_rules_aux_sorted :
    ∀ (fuel : Nat) (acc : List Rule) (s : List Char) (rules : List Rule)
      (rest : List Char),
      parse_rules_aux fuel acc s = some (rules, rest) →
      (∀ r ∈ acc,
        r.selectors.Pairwise (fun a b => specLE b.specificity a.specificity = true)) →
      ∀ r ∈ rules,
        r.selectors.Pairwise (fun a b => specLE b.specificity a.specificity = true) := by
  intro fuel
  induction fuel with
  | zero => intro acc s rules rest h; simp [parse_rules_aux] at h
  | succ f ih =>
    intro acc s rules rest h hacc
    simp only [parse_rules_aux] at h
    cases hws : consume_whitespace s with
    | nil =>
      simp only [hws, Option.some.injEq, Prod.mk.injEq] at h
      obtain ⟨h1, -⟩ := h
      rw [← h1]
      exact hacc
    | cons c cs =>
      simp only [hws] at h
      cases hr : parse_rule (c :: cs) with
      | none => rw [hr] at h; exact Option.noConfusion h
      | some p =>
        simp only [hr] at h
        refine ih (acc ++ [p.1]) p.2 rules rest h ?_
        intro r hr'
        rcases List.mem_append.mp hr' with hmem | hmem
        · exact hacc r hmem
        · have : r = p.1 := by simpa using hmem
          subst this
          exact parse_rule_sorted (c :: cs) p.1 p.2 (by rw [hr])

theorem parse_rules_sorted (source : List Char) (sheet : Stylesheet)
    (h : parse source = some sheet) :
    ∀ r ∈ sheet.rules,
      r.selectors.Pairwise (fun a b => specLE b.specificity a.specificity = true) := by
  simp only [parse] at h
  cases haux : parse_rules_aux (source.length + 1) [] source with
  | none => rw [haux] at h; exact Option.noConfusion h
  | some p =>
    simp only [haux, Option.map_some', Option.some.injEq] at h
    intro r hr
    refine parse_rules_aux_sorted (source.length + 1) [] source p.1 p.2
      (by rw [haux]) (by simp) r ?_
    rw [← h] at hr
    exact hr

end Css

theorem find_first_match_max (e : ElementData) :
    ∀ l : List Selector,
      l.Pairwise (fun a b => specLE b.specificity a.specificity = true) →
      ∀ sel₀, l.find? (fun sel => matches' e sel) = some sel₀ →
      ∀ sel ∈ l, matches' e sel = true →
        specLE sel.specificity sel₀.specificity = true := by
  intro l
  induction l with
  | nil => intro _ sel₀ h; simp at h
  | cons a l ih =>
    intro hp sel₀ hfind sel hsel hm
    rcases List.pairwise_cons.mp hp with ⟨ha, hl⟩
    by_cases hma : matches' e a = true
    · rw [List.find?_cons_of_pos _ hma] at hfind
      obtain rfl : a = sel₀ := by simpa using hfind
      rcases List.mem_cons.mp hsel with rfl | hmem
      · exact specLE_refl _
      · exact ha sel hmem
    · rw [List.find?_cons_of_neg _ (by simpa using hma)] at hfind
      rcases List.mem_cons.mp hsel with rfl | hmem
      · exact absurd hm hma
      · exact ih hl sel₀ hfind sel hmem hm

/-- C8: every rule produced by `css::parse` has its selector list sorted
in decreasing specificity, and consequently `match_rule`, which records
the first matching selector's specificity, records the maximum
specificity among the rule's matching selectors. -/
theorem c8_selectors_sorted_match_rule_max :
    (∀ (source : List Char) (sheet : Stylesheet), Css.parse source = some sheet →
      ∀ r ∈ sheet.rules,
        r.selectors.Pairwise (fun a b => specLE b.specificity a.specificity = true))
    ∧ (∀ (e : ElementData) (r : Rule),
        r.selectors.Pairwise (fun a b => specLE b.specificity a.specificity = true) →
        ∀ sp r', match_rule e r = some (sp, r') →
          r' = r
          ∧ (∃ sel ∈ r.selectors, matches' e sel = true ∧ sel.specificity = sp)
          ∧ ∀ sel ∈ r.selectors, matches' e sel = true →
              specLE sel.specificity sp = true) := by
  refine ⟨Css.parse_rules_sorted, ?_⟩
  intro e r hsorted sp r' h
  simp only [match_rule] at h
  cases hf : r.selectors.find? (fun sel => matches' e sel) with
  | none => rw [hf] at h; exact Option.noConfusion h
  | some sel₀ =>
    simp only [hf, Option.map_some', Option.some.injEq, Prod.mk.injEq] at h
    obtain ⟨h1, h2⟩ := h
    refine ⟨h2.symm, ⟨sel₀, List.mem_of_find?_eq_some hf, ?_, h1⟩, ?_⟩
    · have := List.find?_some hf
      simpa using this
    · intro sel hmem hm
      rw [← h1]
      exact find_first_match_max e r.selectors hsorted sel₀ hf sel hmem hm

theorem c8_selectors_sorted_match_rule_max_witness :
    match_rule ⟨"p", [("class", "note")]⟩
      ⟨[.Simple ⟨some "p", none, ["note"]⟩, .Simple ⟨some "p", none, []⟩],
       [⟨"margin", .Keyword "auto"⟩]⟩ =
      some ((0, 1, 1),
        ⟨[.Simple ⟨some "p", none, ["note"]⟩, .Simple ⟨some "p", none, []⟩],
         [⟨"margin", .Keyword "auto"⟩]⟩)
    ∧ ∀ sel ∈ [Selector.Simple ⟨some "p", none, ["note"]⟩,
               Selector.Simple ⟨some "p", none, []⟩],
        matches' ⟨"p", [("class", "note")]⟩ sel = true →
          specLE sel.specificity (0, 1, 1) = true := by
  refine ⟨by rfl, ?_⟩
  have h := (c8_selectors_sorted_match_rule_max.2 ⟨"p", [("class", "note")]⟩
    ⟨[.Simple ⟨some "p", none, ["note"]⟩, .Simple ⟨some "p", none, []⟩],
     [⟨"margin", .Keyword "auto"⟩]⟩ (by decide) (0, 1, 1)
    ⟨[.Simple ⟨some "p", none, ["note"]⟩, .Simple ⟨some "p", none, []⟩],
     [⟨"margin", .Keyword "auto"⟩]⟩ (by rfl))
  exact h.2.2

/-! ## html.rs parser -/

namespace Html

/-- The tag-name character set of `Parser::parse_tag_name`. -/
def tag_char (c : Char) : Bool :=
  (decide ('a' ≤ c) && decide (c ≤ 'z')) || (decide ('A' ≤ c) && decide (c ≤ 'Z')) ||
    (decide ('0' ≤ c) && decide (c ≤ '9'))

/-- `Parser::consume_whitespace` of html.rs. -/
def consume_whitespace (s : List Char) : List Char :=
  s.dropWhile Char.isWhitespace

/-- `Parser::parse_tag_name`. -/
def parse_tag_name (s : List Char) : List Char × List Char :=
  (s.takeWhile tag_char, s.dropWhile tag_char)

/-- `Parser::parse_text`. -/
def parse_text (s : List Char) : Node × List Char :=
  (text (String.mk (s.takeWhile (fun c => !(c == '<')))),
   s.dropWhile (fun c => !(c == '<')))

/-- `Parser::parse_attr_value`: a quoted value; a missing quote or eof
is an assertion failure. -/
def parse_attr_value (s : List Char) : Option (String × List Char) :=
  match s with
  | q :: s1 =>
    if q == '"' || q == '\'' then
      let v := s1.takeWhile (fun c => !(c == q))
      match s1.dropWhile (fun c => !(c == q)) with
      | q' :: s2 => if q' == q then some (String.mk v, s2) else none
      | [] => none
    else none
  | [] => none

/-- `HashMap::insert` for attribute maps: prepend, shadowing older
entries under first-match lookup. -/
def attrInsert (m : AttrMap) (k v : String) : AttrMap := (k, v) :: m

/-- `Parser::parse_attr`. -/
def parse_attr (s : List Char) : Option ((String × String) × List Char) :=
  let (name, s1) := parse_tag_name s
  match s1 with
  | '=' :: s2 =>
    match parse_attr_value s2 with
    | none => none
    | some (v, s3) => some ((String.mk name, v), s3)
  | _ => none

/-- The loop of `Parser::parse_attributes`. -/
def parse_attributes_aux : Nat → AttrMap → List Char → Option (AttrMap × List Char)
| 0, _, _ => none
| fuel+1, attrs, s =>
  let s1 := consume_whitespace s
  match s1 with
  | [] => none
  | '>' :: _ => some (attrs, s1)
  | _ =>
    match parse_attr s1 with
    | none => none
    | some (nv, s2) => parse_attributes_aux fuel (attrInsert attrs nv.1 nv.2) s2

/-- `Parser::parse_attributes`. -/
def parse_attributes (s : List Char) : Option (AttrMap × List Char) :=
  parse_attributes_aux (s.length + 1) [] s

/-- The data loop of `Parser::parse_comment`: collect characters until
`-->`, counting consecutive dashes. -/
def parse_comment_aux : Nat → List Char → Nat → List Char → Option (String × List Char)
| 0, _, _, _ => none
| fuel+1, acc, dashes, s =>
  match s with
  | [] => none
  | c :: s1 =>
    if c == '-' then parse_comment_aux fuel acc (dashes + 1) s1
    else if c == '>' && decide (2 ≤ dashes) then some (String.mk acc, s1)
    else parse_comment_aux fuel (acc ++ List.replicate dashes '-' ++ [c]) 0 s1

/-- `Parser::parse_comment`. -/
def parse_comment (s : List Char) : Option (Node × List Char) :=
  match s with
  | '<' :: '!' :: '-' :: '-' :: s1 =>
    match parse_comment_aux (s1.length + 1) [] 0 s1 with
    | none => none
    | some (data, s2) => some (comment data, s2)
  | _ => none

/-- `Parser::parse_element`, parameterised by the recursive call into
`parse_nodes` for its contents.  A missing closing tag only warns and
recovers; a mismatched closing tag name is consumed, warned about and
ignored; but a malformed closing tag (no `>` after the name) or eof
inside the opening tag is an assertion failure. -/
def parse_element_go (recNodes : List Char → Option (List Node × List Char))
    (s : List Char) : Option (Node × List Char) :=
  match s with
  | '<' :: s1 =>
    let (tag, s2) := parse_tag_name s1
    match parse_attributes s2 with
    | none => none
    | some (attrs, s3) =>
      match s3 with
      | '>' :: s4 =>
        match recNodes s4 with
        | none => none
        | some (children, s5) =>
          if s5.take 2 = ['<', '/'] then
            let (_closing, s6) := parse_tag_name (s5.drop 2)
            match s6 with
            | '>' :: s7 => some (elem (String.mk tag) attrs children, s7)
            | _ => none
          else
            some (elem (String.mk tag) attrs children, s5)
      | _ => none
  | _ => none

/-- `Parser::parse_node`, parameterised like `parse_element_go`. -/
def parse_node_go (recNodes : List Char → Option (List Node × List Char))
    (s : List Char) : Option (Node × List Char) :=
  match s with
  | [] => none
  | c :: _ =>
    if c == '<' then
      if s.take 4 = ['<', '!', '-', '-'] then parse_comment s
      else parse_element_go recNodes s
    else some (parse_text s)

/-- The loop of `Parser::parse_nodes`: nodes until eof or a closing
tag. -/
def parse_nodes : Nat → List Char → Option (List Node × List Char)
| 0, _ => none
| fuel+1, s =>
  let s1 := consume_whitespace s
  if s1.isEmpty || s1.take 2 = ['<', '/'] then some ([], s1)
  else
    match parse_node_go (parse_nodes fuel) s1 with
    | none => none
    | some (n, s2) =>
      match parse_nodes fuel s2 with
      | none => none
      | some (ns, s3) => some (n :: ns, s3)

/-- `html::parse`: parse the top-level nodes; a single root is returned
as-is, otherwise an `html` element with no attributes is synthesized
around them. -/
def parse (source : List Char) : Option Node :=
  match parse_nodes (source.length + 1) source with
  | none => none
  | some (nodes, _) =>
    if nodes.length = 1 then nodes.head?
    else some (elem "html" [] nodes)

end Html

example : Html.parse "<div class=\"a\"><p>Hi</p></div>".data =
    some (elem "div" [("class", "a")] [elem "p" [] [text "Hi"]]) := by rfl

example : Html.parse "a<!--c-->".data =
    some (elem "html" [] [text "a", comment "c"]) := by rfl

/-! ## Claims C7 and C9: html parse behaviour at the top level -/

/-- C7 counterexample: the HTML parser DOES produce a document tree
from input whose closing tag is missing — `<div>` parses to an empty
`div` element (the source only prints a warning). -/
theorem c7_counterexample_missing_closing_tag_recovers :
    Html.parse "<div>".data = some (elem "div" [] []) := by rfl

/-- C7 (amended): malformed CSS is a fatal error producing no
stylesheet, but the HTML parser recovers from missing and from
mismatched closing tags, producing a document tree anyway after only a
warning: `<div>` yields an empty `div`, and in `<div><p>x</q></div>`
the mismatched `</q>` is consumed and ignored. -/
theorem c7_amended_html_recovers_css_fatal :
    Html.parse "<div>".data = some (elem "div" [] [])
    ∧ Html.parse "<div><p>x</q></div>".data =
        some (elem "div" [] [elem "p" [] [text "x"]])
    ∧ Css.parse "h1 \x7b color red; \x7d".data = none := by
  exact ⟨rfl, rfl, rfl⟩

/-- C9: if the top-level node list has exactly one node, `html::parse`
returns that node itself; otherwise (zero or several top-level nodes)
it returns a synthesized `html` element with no attributes whose
children are the parsed nodes in order. -/
theorem c9_parse_single_root_or_synthesized_html (source : List Char)
    (ns : List Node) (rest : List Char)
    (h : Html.parse_nodes (source.length + 1) source = some (ns, rest)) :
    (ns.length = 1 → Html.parse source = ns.head?)
    ∧ (ns.length ≠ 1 → Html.parse source = some (elem "html" [] ns)) := by
  constructor <;> intro hl <;> simp [Html.parse, h, hl]

theorem c9_parse_single_root_or_synthesized_html_witness :
    Html.parse "<p></p><b></b>".data =
      some (elem "html" [] [elem "p" [] [], elem "b" [] []]) := by
  have h := c9_parse_single_root_or_synthesized_html "<p></p><b></b>".data
    [elem "p" [] [], elem "b" [] []] [] (by rfl)
  exact h.2 (by decide)

/-! ## Block width resolution (claim C10) -/

/-- Modelled from the spec: a `width` or margin property value that is
either the keyword `auto` or a resolved length. -/
inductive AutoOrLength where
| auto
| len : ℚ → AutoOrLength
deriving DecidableEq

/-- The contribution of a value to the sum of non-auto components
(`auto` contributes zero). -/
def AutoOrLength.toLen : AutoOrLength → ℚ
| .auto => 0
| .len v => v

/-- Modelled from the spec: the seven horizontal inputs of block width
resolution after property lookup — `width` and the margins default to
`auto` when unset, borders and paddings to zero. -/
structure BlockWidthInputs where
  width : AutoOrLength
  margin_left : AutoOrLength
  margin_right : AutoOrLength
  border_left : ℚ
  border_right : ℚ
  padding_left : ℚ
  padding_right : ℚ
deriving DecidableEq

/-- Modelled from the spec: `layout.rs` is not under src/ (main.rs only
declares and calls the layout module), so §4.1 step 2 is embedded from
the specification's words: sum all non-auto horizontal components; if
`width` is not auto, the excess (`containing_width` minus the sum) goes
to `margin-right` if it alone is auto, is split equally when both
margins are auto, is assigned to the sole auto margin otherwise, and
when neither margin is auto it is added to `margin-right` regardless
(the overconstrained case); if `width` is auto, auto margins count as
zero and width absorbs the remaining space floored at zero.  Returns
(width, margin-left, margin-right) after resolution. -/
def calculate_block_width (i : BlockWidthInputs) (containing_width : ℚ) :
    ℚ × ℚ × ℚ :=
  let total := i.width.toLen + i.margin_left.toLen + i.margin_right.toLen +
    i.border_left + i.border_right + i.padding_left + i.padding_right
  let underflow := containing_width - total
  match i.width, i.margin_left, i.margin_right with
  | .len w, .len ml, .len mr => (w, ml, mr + underflow)
  | .len w, .len ml, .auto => (w, ml, underflow)
  | .len w, .auto, .len mr => (w, underflow, mr)
  | .len w, .auto, .auto => (w, underflow / 2, underflow / 2)
  | .auto, ml, mr => (max 0 underflow, ml.toLen, mr.toLen)

/-- C10: when `width` is an explicit length and neither margin is auto,
the resolved seven horizontal components sum exactly to the containing
width, and the whole excess has been added to `margin-right`. -/
theorem c10_resolved_widths_sum_to_containing (i : BlockWidthInputs)
    (cw w ml mr : ℚ) (hw : i.width = .len w) (hml : i.margin_left = .len ml)
    (hmr : i.margin_right = .len mr) :
    (calculate_block_width i cw).2.1 + i.border_left + i.padding_left +
      (calculate_block_width i cw).1 + i.padding_right + i.border_right +
      (calculate_block_width i cw).2.2 = cw
    ∧ (calculate_block_width i cw).2.2 =
        mr + (cw - (ml + i.border_left + i.padding_left + w + i.padding_right +
          i.border_right + mr)) := by
  obtain ⟨wi, mli, mri, bl, br, pl, pr⟩ := i
  simp only at hw hml hmr
  subst hw; subst hml; subst hmr
  simp only [calculate_block_width, AutoOrLength.toLen]
  constructor <;> ring

theorem c10_resolved_widths_sum_to_containing_witness :
    (calculate_block_width ⟨.len 100, .len 10, .len 10, 0, 0, 0, 0⟩ 800).2.1 + 0 + 0 +
      (calculate_block_width ⟨.len 100, .len 10, .len 10, 0, 0, 0, 0⟩ 800).1 + 0 + 0 +
      (calculate_block_width ⟨.len 100, .len 10, .len 10, 0, 0, 0, 0⟩ 800).2.2 = 800
    ∧ (calculate_block_width ⟨.len 100, .len 10, .len 10, 0, 0, 0, 0⟩ 800).2.2 =
        10 + (800 - (10 + 0 + 0 + 100 + 0 + 0 + 10)) :=
  c10_resolved_widths_sum_to_containing ⟨.len 100, .len 10, .len 10, 0, 0, 0, 0⟩
    800 100 10 10 rfl rfl rfl
